import Mathlib

set_option maxHeartbeats 1000000
set_option maxRecDepth 8000

/-!
Shallow embedding of the data pipeline and training-loop logic of
`main_2d.py` (Deep-MRI-Reconstruction), with proofs of the specified
properties.  Pure Python functions become Lean functions; the random
draws made by numpy are modelled as explicit oracle arguments; fallible
code paths return `Except`.
-/

namespace DeepMRI

variable {α : Type}

/-- Fuel-indexed helper for the generator
`for i in xrange(0, n, batch_size): yield data[i:i+batch_size]`
(main_2d.py, lines 53-54).  Each iteration yields the slice
`data[i:i+batch_size]` (here `take`) and continues on the remainder
(here `drop`).  `fuel` bounds the number of emitted batches;
`iterate_minibatch` instantiates it with `data.length`, which suffices
whenever `batch_size ≥ 1` because every step consumes at least one
element. -/
def iterate_minibatch_go (batch_size : Nat) : Nat → List α → List (List α)
  | 0, _ => []
  | _ + 1, [] => []
  | fuel + 1, x :: xs =>
    (x :: xs).take batch_size :: iterate_minibatch_go batch_size fuel ((x :: xs).drop batch_size)

/-- Shallow embedding of `iterate_minibatch` (main_2d.py, lines 47-54) without
the shuffle branch.  `batch_size = 0`, on which Python's `xrange` raises
`ValueError`, is mapped to the empty generator; all theorems assume
`1 ≤ batch_size`. -/
def iterate_minibatch (data : List α) (batch_size : Nat) : List (List α) :=
  if batch_size = 0 then [] else iterate_minibatch_go batch_size data.length data

/-- The three data splits iterated by the epoch loop. -/
inductive Split
  | train
  | validate
  | test
deriving DecidableEq

/-- Shuffle flag passed to `iterate_minibatch` for each split in the epoch
loop (main_2d.py, lines 171, 182, 196): `shuffle=True` for training,
`shuffle=False` for validation and test. -/
def split_shuffle : Split → Bool
  | Split.train => true
  | Split.validate => false
  | Split.test => false

/-- Full `iterate_minibatch` including the branch
`if shuffle: data = np.random.permutation(data)` (main_2d.py, lines 50-51):
the random permutation drawn by numpy is modelled by the oracle argument
`shuffled`, constrained to be a permutation of `data` in the theorems. -/
def iterate_minibatch_shuffle (data shuffled : List α) (batch_size : Nat) (shuffle : Bool) :
    List (List α) :=
  iterate_minibatch (if shuffle then shuffled else data) batch_size

theorem iterate_minibatch_go_flatten (B : Nat) (hB : 1 ≤ B) :
    ∀ (fuel : Nat) (data : List α), data.length ≤ fuel →
      (iterate_minibatch_go B fuel data).flatten = data := by
  intro fuel
  induction fuel with
  | zero =>
    intro data h
    have : data = [] := List.eq_nil_of_length_eq_zero (Nat.le_zero.mp h)
    subst this
    rfl
  | succ fuel ih =>
    intro data h
    match data with
    | [] => rfl
    | x :: xs =>
      have hdrop : ((x :: xs).drop B).length ≤ fuel := by
        rw [List.length_drop]
        simp only [List.length_cons] at h ⊢
        omega
      simp only [iterate_minibatch_go, List.flatten_cons]
      rw [ih _ hdrop, List.take_append_drop]

theorem iterate_minibatch_go_map_length (B : Nat) (hB : 1 ≤ B) :
    ∀ (fuel : Nat) (data : List α), data.length ≤ fuel →
      (iterate_minibatch_go B fuel data).map List.length
        = List.replicate (data.length / B) B
          ++ (if data.length % B = 0 then [] else [data.length % B]) := by
  intro fuel
  induction fuel with
  | zero =>
    intro data h
    have : data = [] := List.eq_nil_of_length_eq_zero (Nat.le_zero.mp h)
    subst this
    simp [iterate_minibatch_go]
  | succ fuel ih =>
    intro data h
    match data with
    | [] =>
      simp [iterate_minibatch_go]
    | x :: xs =>
      have hn : 1 ≤ (x :: xs).length := by simp
      set n := (x :: xs).length with hn_def
      have hdrop : ((x :: xs).drop B).length ≤ fuel := by
        rw [List.length_drop]
        omega
      have hdl : ((x :: xs).drop B).length = n - B := by
        rw [List.length_drop]
      simp only [iterate_minibatch_go, List.map_cons]
      rw [ih _ hdrop, hdl, List.length_take, ← hn_def]
      rcases Nat.lt_or_ge n B with hlt | hge
      · -- fewer elements than one batch: a single short batch
        have h1 : n - B = 0 := by omega
        have h2 : n / B = 0 := Nat.div_eq_of_lt hlt
        have h3 : n % B = n := Nat.mod_eq_of_lt hlt
        have h4 : min B n = n := by omega
        have h5 : n ≠ 0 := by omega
        simp [h1, h2, h3, h4, h5]
      · -- at least one full batch
        have h4 : min B n = B := by omega
        have hsplit : n = (n - B) + B := by omega
        have hmod : n % B = (n - B) % B := by
          conv_lhs => rw [hsplit]
          rw [Nat.add_mod_right]
        have hdiv : n / B = (n - B) / B + 1 := by
          conv_lhs => rw [hsplit]
          rw [Nat.add_div_right _ (by omega)]
        rw [h4, hmod, hdiv, List.replicate_succ, List.cons_append]

theorem iterate_minibatch_flatten (data : List α) (B : Nat) (hB : 1 ≤ B) :
    (iterate_minibatch data B).flatten = data := by
  rw [iterate_minibatch, if_neg (by omega)]
  exact iterate_minibatch_go_flatten B hB _ data le_rfl

theorem iterate_minibatch_map_length (data : List α) (B : Nat) (hB : 1 ≤ B) :
    (iterate_minibatch data B).map List.length
      = List.replicate (data.length / B) B
        ++ (if data.length % B = 0 then [] else [data.length % B]) := by
  rw [iterate_minibatch, if_neg (by omega)]
  exact iterate_minibatch_go_map_length B hB _ data le_rfl

/-- Arithmetic bridge: number of chunks expressed as a ceiling division. -/
theorem chunk_count_eq_ceil (n B : Nat) (hB : 1 ≤ B) :
    n / B + (if n % B = 0 then 0 else 1) = (n + B - 1) / B := by
  have hdm := Nat.div_add_mod n B
  have hmlt : n % B < B := Nat.mod_lt _ (by omega)
  rcases Nat.eq_zero_or_pos (n % B) with h0 | hpos
  · have hrw : n + B - 1 = B * (n / B) + (B - 1) := by omega
    rw [if_pos h0, hrw, Nat.mul_add_div (by omega),
      Nat.div_eq_of_lt (show B - 1 < B by omega)]
  · have hrw : n + B - 1 = B * (n / B + 1) + (n % B - 1) := by
      have hmul : B * (n / B + 1) = B * (n / B) + B := by ring
      omega
    rw [if_neg (by omega), hrw, Nat.mul_add_div (by omega),
      Nat.div_eq_of_lt (show n % B - 1 < B by omega)]

theorem iterate_minibatch_length (data : List α) (B : Nat) (hB : 1 ≤ B) :
    (iterate_minibatch data B).length = (data.length + B - 1) / B := by
  have h := congrArg List.length (iterate_minibatch_map_length data B hB)
  rw [List.length_map] at h
  rw [h, List.length_append, List.length_replicate, ← chunk_count_eq_ceil _ _ hB]
  rcases Nat.eq_zero_or_pos (data.length % B) with h0 | hpos
  · simp [h0]
  · rw [if_neg (by omega), if_neg (by omega)]
    simp

theorem iterate_minibatch_sizes_sum (data : List α) (B : Nat) (hB : 1 ≤ B) :
    ((iterate_minibatch data B).map List.length).sum = data.length := by
  rw [iterate_minibatch_map_length data B hB]
  have hdm : data.length / B * B + data.length % B = data.length :=
    Nat.div_add_mod' data.length B
  rcases Nat.eq_zero_or_pos (data.length % B) with h0 | hpos
  · rw [if_pos h0]
    simp only [List.append_nil, List.sum_replicate, smul_eq_mul]
    omega
  · rw [if_neg (by omega)]
    simp only [List.sum_append, List.sum_replicate, smul_eq_mul, List.sum_cons,
      List.sum_nil, add_zero]
    omega

theorem iterate_minibatch_dropLast_sizes (data : List α) (B : Nat) (hB : 1 ≤ B) :
    ∀ l ∈ (iterate_minibatch data B).dropLast, l.length = B := by
  intro l hl
  have hmem : l.length ∈ ((iterate_minibatch data B).map List.length).dropLast := by
    rw [← List.map_dropLast]
    exact List.mem_map_of_mem _ hl
  rw [iterate_minibatch_map_length data B hB] at hmem
  rcases Nat.eq_zero_or_pos (data.length % B) with h0 | hpos
  · rw [if_pos h0, List.append_nil] at hmem
    have hsub := List.dropLast_sublist (List.replicate (data.length / B) B)
    exact List.eq_of_mem_replicate (hsub.subset hmem)
  · rw [if_neg (by omega), List.dropLast_concat] at hmem
    exact List.eq_of_mem_replicate hmem

theorem iterate_minibatch_last_size (data : List α) (B : Nat) (hB : 1 ≤ B)
    (hmod : data.length % B ≠ 0) :
    ((iterate_minibatch data B).map List.length).getLast? = some (data.length % B) := by
  rw [iterate_minibatch_map_length data B hB, if_neg hmod]
  exact List.getLast?_concat _

/-- C3: for every dataset of size N ≥ 0 and every batch size B ≥ 1,
`iterate_minibatch` yields exactly ceil(N/B) = (N+B-1)/B batches; the batch
sizes sum to N; every batch except possibly the last has size B; when
N mod B ≠ 0 the last batch has size N mod B; and the batch count is the same
for the shuffled (training) variant, so one training epoch over 20 images with
batch size 10 executes exactly (20+10-1)/10 = 2 minibatches. -/
theorem C3_minibatch_count_and_sizes (data shuffled : List α) (B : Nat) (hB : 1 ≤ B)
    (hperm : shuffled.Perm data) :
    (iterate_minibatch data B).length = (data.length + B - 1) / B
    ∧ ((iterate_minibatch data B).map List.length).sum = data.length
    ∧ (∀ l ∈ (iterate_minibatch data B).dropLast, l.length = B)
    ∧ (data.length % B ≠ 0 →
        ((iterate_minibatch data B).map List.length).getLast? = some (data.length % B))
    ∧ (iterate_minibatch_shuffle data shuffled B true).length = (data.length + B - 1) / B := by
  refine ⟨iterate_minibatch_length data B hB, iterate_minibatch_sizes_sum data B hB,
    iterate_minibatch_dropLast_sizes data B hB, iterate_minibatch_last_size data B hB, ?_⟩
  have ht : iterate_minibatch_shuffle data shuffled B true = iterate_minibatch shuffled B := rfl
  rw [ht, iterate_minibatch_length shuffled B hB, hperm.length_eq]

/-- Witness for C3 at the end-to-end scenario of the spec: a 20-image dataset
with batch size 10 yields exactly 2 training minibatches. -/
theorem C3_minibatch_count_and_sizes_witness :
    (iterate_minibatch (List.range 20) 10).length = 2
    ∧ ((iterate_minibatch (List.range 20) 10).length
          = ((List.range 20).length + 10 - 1) / 10
        ∧ ((iterate_minibatch (List.range 20) 10).map List.length).sum
            = (List.range 20).length
        ∧ (∀ l ∈ (iterate_minibatch (List.range 20) 10).dropLast, l.length = 10)
        ∧ ((List.range 20).length % 10 ≠ 0 →
            ((iterate_minibatch (List.range 20) 10).map List.length).getLast?
              = some ((List.range 20).length % 10))
        ∧ (iterate_minibatch_shuffle (List.range 20) (List.range 20).reverse 10 true).length
            = ((List.range 20).length + 10 - 1) / 10) :=
  ⟨by decide,
    C3_minibatch_count_and_sizes (List.range 20) (List.range 20).reverse 10
      (by decide) (by decide)⟩

/-- C4: with shuffle=false (the mode used for the validation and test splits)
the concatenation of the yielded batches is exactly the input in its original
order; with shuffle=true (the training split) the concatenation is the
permutation of the input drawn for that epoch, hence a permutation of the
input; and the epoch loop passes shuffle=True only for the training split. -/
theorem C4_minibatch_order (data shuffled : List α) (B : Nat) (hB : 1 ≤ B)
    (hperm : shuffled.Perm data) :
    (iterate_minibatch_shuffle data shuffled B false).flatten = data
    ∧ (iterate_minibatch_shuffle data shuffled B true).flatten.Perm data
    ∧ split_shuffle Split.train = true
    ∧ split_shuffle Split.validate = false
    ∧ split_shuffle Split.test = false := by
  have hf : iterate_minibatch_shuffle data shuffled B false = iterate_minibatch data B := rfl
  have ht : iterate_minibatch_shuffle data shuffled B true = iterate_minibatch shuffled B := rfl
  refine ⟨?_, ?_, rfl, rfl, rfl⟩
  · rw [hf]
    exact iterate_minibatch_flatten data B hB
  · rw [ht, iterate_minibatch_flatten shuffled B hB]
    exact hperm

/-- Witness for C4 on a concrete 5-element dataset with batch size 2 and a
concrete shuffled order. -/
theorem C4_minibatch_order_witness :
    (iterate_minibatch_shuffle ([3, 1, 4, 1, 5] : List Nat) [5, 1, 4, 1, 3] 2 false).flatten
        = [3, 1, 4, 1, 5]
    ∧ (iterate_minibatch_shuffle ([3, 1, 4, 1, 5] : List Nat)
        [5, 1, 4, 1, 3] 2 true).flatten.Perm [3, 1, 4, 1, 5]
    ∧ split_shuffle Split.train = true
    ∧ split_shuffle Split.validate = false
    ∧ split_shuffle Split.test = false :=
  C4_minibatch_order [3, 1, 4, 1, 5] [5, 1, 4, 1, 3] 2 (by decide) (by decide)

/-- Checkpoint condition of the epoch loop (main_2d.py, line 229):
`if save_fig and (epoch % save_every == 0 or epoch in [1, 2, num_epoch-1])`.
The milestone comparison `epoch in [1, 2, num_epoch-1]` is over Python ints,
so `num_epoch - 1` is modelled in `Int`. -/
def checkpoint_condition (save_fig : Bool) (epoch save_every num_epoch : Nat) : Bool :=
  save_fig && (decide (epoch % save_every = 0) || decide ((epoch : Int) = 1)
    || decide ((epoch : Int) = 2) || decide ((epoch : Int) = (num_epoch : Int) - 1))

/-- C1 counterexample: with savefig disabled, epoch 0 of a 10-epoch run lies on
the periodic cadence (0 % 5 = 0) yet no model parameters are persisted. -/
theorem C1_checkpoint_counterexample :
    0 % 5 = 0 ∧ checkpoint_condition false 0 5 10 = false := by
  decide

/-- C1 (amended): model parameters are persisted exactly in those epochs that
lie on the periodic cadence or are milestone epochs AND belong to a run with
savefig enabled; with savefig disabled nothing is persisted. -/
theorem C1_checkpoint_iff (save_fig : Bool) (epoch save_every num_epoch : Nat) :
    checkpoint_condition save_fig epoch save_every num_epoch = true
      ↔ save_fig = true
        ∧ (epoch % save_every = 0 ∨ epoch = 1 ∨ epoch = 2
            ∨ (epoch : Int) = (num_epoch : Int) - 1) := by
  simp [checkpoint_condition, or_assoc]
  intro
  constructor
  · rintro (h | h | h | h)
    · exact Or.inl h
    · exact Or.inr (Or.inl (by exact_mod_cast h))
    · exact Or.inr (Or.inr (Or.inl (by exact_mod_cast h)))
    · exact Or.inr (Or.inr (Or.inr h))
  · rintro (h | h | h | h)
    · exact Or.inl h
    · exact Or.inr (Or.inl (by exact_mod_cast h))
    · exact Or.inr (Or.inr (Or.inl (by exact_mod_cast h)))
    · exact Or.inr (Or.inr (Or.inr h))

/-- Witness for C1 (amended): with savefig enabled, epoch 5 of a 10-epoch run
is checkpointed (cadence), and so is epoch 9 (milestone num_epoch - 1). -/
theorem C1_checkpoint_iff_witness :
    checkpoint_condition true 5 5 10 = true ∧ checkpoint_condition true 9 5 10 = true :=
  ⟨(C1_checkpoint_iff true 5 5 10).mpr ⟨rfl, Or.inl (by decide)⟩,
    (C1_checkpoint_iff true 9 5 10).mpr ⟨rfl, Or.inr (Or.inr (Or.inr (by decide)))⟩⟩

/-- Division used for the epoch summary statistics.  The script runs under
`from __future__ import division` (main_2d.py, line 2), so `/` is true
division and a zero divisor raises `ZeroDivisionError`; that failure is
modelled with `Except`. -/
def div_report (err : ℚ) (divisor : Nat) : Except String ℚ :=
  if divisor = 0 then Except.error "ZeroDivisionError" else Except.ok (err / divisor)

/-- Training-loss line of the epoch summary (main_2d.py, line 222):
`train_err / max(1, train_batches)`. -/
def train_loss_report (train_err : ℚ) (train_batches : Nat) : Except String ℚ :=
  div_report train_err (max 1 train_batches)

/-- Validation-loss line of the epoch summary (main_2d.py, line 223):
`validate_err / validate_batches`, with no flooring of the divisor. -/
def validate_loss_report (validate_err : ℚ) (validate_batches : Nat) : Except String ℚ :=
  div_report validate_err validate_batches

/-- Test-loss line of the epoch summary (main_2d.py, line 224):
`test_err / test_batches`, with no flooring of the divisor. -/
def test_loss_report (test_err : ℚ) (test_batches : Nat) : Except String ℚ :=
  div_report test_err test_batches

/-- C2 counterexample: a zero-batch validation split is surfaced as a
division-by-zero error, so the divisor is not floored at 1 for every split. -/
theorem C2_division_counterexample :
    validate_loss_report 0 0 = Except.error "ZeroDivisionError" := rfl

/-- C2 (amended): only the training split's divisor is floored at 1, so a
zero-batch training split reports err/1 without error, while zero-batch
validation and test splits hit a zero divisor and fail. -/
theorem C2_division_guard (err : ℚ) (n : Nat) :
    train_loss_report err 0 = Except.ok err
    ∧ (∃ q, train_loss_report err n = Except.ok q)
    ∧ validate_loss_report err 0 = Except.error "ZeroDivisionError"
    ∧ test_loss_report err 0 = Except.error "ZeroDivisionError" := by
  refine ⟨?_, ⟨err / (max 1 n : Nat), ?_⟩, rfl, rfl⟩
  · show Except.ok (err / ((1 : Nat) : ℚ)) = Except.ok err
    norm_num
  · rw [train_loss_report, div_report, if_neg (by omega)]

/-- Objective construction of `compile_fn` (main_2d.py, lines 92-100).
`loss = loss_sq + l2_penalty * l2` is bound only under `if l2:` (Python float
truthiness: nonzero); the later `update_rule(loss, params, ...)` therefore
raises `NameError` when `l2 == 0`.  The external symbolic compilation is
summarised by returning the loss expression shared by the compiled training
and evaluation functions. -/
def compile_fn (l2 loss_sq l2_penalty : ℚ) : Except String ℚ :=
  let loss? : Option ℚ := if l2 ≠ 0 then some (loss_sq + l2_penalty * l2) else none
  match loss? with
  | some loss => Except.ok loss
  | none => Except.error "NameError: name loss is not defined"

/-- C9: `compile_fn` requires a nonzero l2 weight: with l2 = 0 the use of the
unbound `loss` fails with a NameError, and with l2 ≠ 0 that failure branch is
unreachable and the total loss `loss_sq + l2_penalty * l2` is compiled. -/
theorem C9_compile_fn_requires_l2 (l2 loss_sq l2_penalty : ℚ) :
    (l2 = 0 →
      compile_fn l2 loss_sq l2_penalty = Except.error "NameError: name loss is not defined")
    ∧ (l2 ≠ 0 →
      compile_fn l2 loss_sq l2_penalty = Except.ok (loss_sq + l2_penalty * l2)) := by
  constructor
  · intro h
    simp [compile_fn, h]
  · intro h
    simp [compile_fn, h]

/-- Witness for C9: at l2 = 0 compilation fails with the NameError; at the
default l2 = 1e-6 it succeeds. -/
theorem C9_compile_fn_requires_l2_witness :
    compile_fn 0 1 1 = Except.error "NameError: name loss is not defined"
    ∧ compile_fn (1 / 1000000) 1 1 = Except.ok (1 + 1 * (1 / 1000000)) :=
  ⟨(C9_compile_fn_requires_l2 0 1 1).1 rfl,
    (C9_compile_fn_requires_l2 (1 / 1000000) 1 1).2 (by norm_num)⟩

/-- PSNR accumulation and reporting of the test phase (main_2d.py, lines
196-206 and 225-226): the test split is iterated in minibatches; for each
batch, one `complex_psnr` value per image actually present in the batch is
accumulated; the epoch summary divides the accumulated sum by
`test_batches * batch_size`.  The list `psnrs` holds the per-image PSNR
values of the test split in order. -/
def psnr_report (psnrs : List ℚ) (batch_size : Nat) : ℚ :=
  let batches := iterate_minibatch psnrs batch_size
  (batches.map List.sum).sum / ((batches.length * batch_size : Nat) : ℚ)

/-- C10 counterexample: for a test split of 11 images with batch size 10 whose
per-image PSNRs are all 0, the divisor test_batches*batch_size = 20 strictly
exceeds 11, yet the reported value equals the arithmetic mean of the
per-image PSNRs (both are 0), so it is not strictly smaller. -/
theorem C10_psnr_counterexample :
    (iterate_minibatch (List.replicate 11 (0 : ℚ)) 10).length * 10 = 20
    ∧ ¬ (psnr_report (List.replicate 11 (0 : ℚ)) 10
          < (List.replicate 11 (0 : ℚ)).sum / 11) := by
  constructor
  · decide
  · have h1 : psnr_report (List.replicate 11 (0 : ℚ)) 10 = 0 := by
      rw [psnr_report]
      show ((iterate_minibatch (List.replicate 11 (0 : ℚ)) 10).map List.sum).sum / _ = 0
      rw [← List.sum_flatten, iterate_minibatch_flatten _ 10 (by omega)]
      simp
    have h2 : (List.replicate 11 (0 : ℚ)).sum = 0 := by simp
    rw [h1, h2, zero_div]
    exact lt_irrefl 0

/-- C10 (amended): the reported mean PSNR is the accumulated per-image sum
divided by test_batches * batch_size; the accumulated terms are exactly the N
per-image PSNRs of the split; whenever B does not divide N this divisor
strictly exceeds N; and consequently the reported value is strictly smaller
than the arithmetic mean of the per-image PSNRs whenever the accumulated sum
is positive (for a nonpositive sum the strict inequality can fail, as the
counterexample shows). -/
theorem C10_psnr_report_dilution (psnrs : List ℚ) (B : Nat) (hB : 1 ≤ B)
    (hndvd : ¬ B ∣ psnrs.length) :
    ((iterate_minibatch psnrs B).map List.sum).sum = psnrs.sum
    ∧ psnrs.length < (iterate_minibatch psnrs B).length * B
    ∧ (0 < psnrs.sum → psnr_report psnrs B < psnrs.sum / (psnrs.length : ℚ)) := by
  have hmod : psnrs.length % B ≠ 0 := fun h => hndvd (Nat.dvd_of_mod_eq_zero h)
  have hsum : ((iterate_minibatch psnrs B).map List.sum).sum = psnrs.sum := by
    conv_rhs => rw [← iterate_minibatch_flatten psnrs B hB]
    rw [List.sum_flatten]
  have hdiv : psnrs.length < (iterate_minibatch psnrs B).length * B := by
    rw [iterate_minibatch_length psnrs B hB, ← chunk_count_eq_ceil _ _ hB, if_neg hmod]
    have hdm : psnrs.length / B * B + psnrs.length % B = psnrs.length :=
      Nat.div_add_mod' psnrs.length B
    have hmlt : psnrs.length % B < B := Nat.mod_lt _ (by omega)
    have hexp : (psnrs.length / B + 1) * B = psnrs.length / B * B + B := by ring
    omega
  refine ⟨hsum, hdiv, fun hpos => ?_⟩
  have hN : 0 < psnrs.length := by
    rcases Nat.eq_zero_or_pos psnrs.length with h | h
    · exact absurd (h ▸ Nat.dvd_zero B) (h ▸ hndvd)
    · exact h
  rw [psnr_report]
  show ((iterate_minibatch psnrs B).map List.sum).sum
      / (((iterate_minibatch psnrs B).length * B : Nat) : ℚ) < _
  rw [hsum]
  apply div_lt_div_of_pos_left hpos
  · exact_mod_cast hN
  · exact_mod_cast hdiv

/-- Witness for C10 (amended) at 11 unit PSNRs with batch size 10: the
reported value 11/20 is strictly below the true mean 1. -/
theorem C10_psnr_report_dilution_witness :
    psnr_report (List.replicate 11 (1 : ℚ)) 10
        < (List.replicate 11 (1 : ℚ)).sum / ((List.replicate 11 (1 : ℚ)).length : ℚ)
    ∧ ((iterate_minibatch (List.replicate 11 (1 : ℚ)) 10).map List.sum).sum
        = (List.replicate 11 (1 : ℚ)).sum
    ∧ (List.replicate 11 (1 : ℚ)).length
        < (iterate_minibatch (List.replicate 11 (1 : ℚ)) 10).length * 10 :=
  ⟨(C10_psnr_report_dilution (List.replicate 11 1) 10 (by decide) (by decide)).2.2
      (by norm_num),
    (C10_psnr_report_dilution (List.replicate 11 1) 10 (by decide) (by decide)).1,
    (C10_psnr_report_dilution (List.replicate 11 1) 10 (by decide) (by decide)).2.1⟩

/-- Modelled from the spec: the Format Adapter forward conversion
`to_lasagne_format` (spec §4.3; the helper `cascadenet.util.helpers` is not
part of the sources, only its caller `prep_input` is).  A complex image batch
is a list of images, each a list of rows of (re, im) pixel pairs; the network
format stacks the real plane and the imaginary plane as two channels. -/
def to_lasagne_format (x : List (List (List (ℚ × ℚ)))) : List (List (List (List ℚ))) :=
  x.map fun image =>
    [image.map (fun row => row.map Prod.fst), image.map (fun row => row.map Prod.snd)]

/-- Modelled from the spec: the Format Adapter inverse `from_lasagne_format`
(spec §4.3): channel 0 is taken as the real part and channel 1 as the
imaginary part; inputs without exactly two channels are outside the contract
and mapped to an empty image. -/
def from_lasagne_format (t : List (List (List (List ℚ)))) : List (List (List (ℚ × ℚ))) :=
  t.map fun chans =>
    match chans with
    | [re, im] => List.zipWith List.zip re im
    | _ => []

/-- Modelled from the spec: the mask variant of the forward conversion
(spec §4.3): a real-valued mask is replicated into both channels. -/
def to_lasagne_format_mask (m : List (List (List ℚ))) : List (List (List (List ℚ))) :=
  m.map fun image => [image, image]

/-- Modelled from the spec: the mask variant of the inverse conversion
(spec §4.3): channel 0 is taken, the duplicate discarded. -/
def from_lasagne_format_mask (t : List (List (List (List ℚ)))) : List (List (List ℚ)) :=
  t.map fun chans => chans.headD []

theorem zip_map_fst_snd_self (row : List (ℚ × ℚ)) :
    (row.map Prod.fst).zip (row.map Prod.snd) = row := by
  induction row with
  | nil => rfl
  | cons p ps ih => simp [ih]

/-- C5: the format-adapter round trip is the identity, exactly, for every
complex image batch and for every mask batch: no precision loss, as the
conversion only reshuffles the memory layout. -/
theorem C5_lasagne_roundtrip (x : List (List (List (ℚ × ℚ)))) (m : List (List (List ℚ))) :
    from_lasagne_format (to_lasagne_format x) = x
    ∧ from_lasagne_format_mask (to_lasagne_format_mask m) = m := by
  constructor
  · have key : ∀ image : List (List (ℚ × ℚ)),
        List.zipWith List.zip (image.map fun row => row.map Prod.fst)
          (image.map fun row => row.map Prod.snd) = image := by
      intro image
      induction image with
      | nil => rfl
      | cons row rows ih =>
        simp only [List.map_cons, List.zipWith_cons_cons, ih, zip_map_fst_snd_self]
    rw [from_lasagne_format, to_lasagne_format, List.map_map]
    conv_rhs => rw [← List.map_id x]
    exact List.map_congr_left fun image _ => key image
  · rw [from_lasagne_format_mask, to_lasagne_format_mask, List.map_map]
    conv_rhs => rw [← List.map_id m]
    exact List.map_congr_left fun image _ => rfl

/-- Modelled from the spec: membership of frequency line `i` (centred order:
zero frequency at index Nx/2) in the band of the sample_n lowest-frequency
lines forced when sample_centre is set (spec §4.1; the mask generator
`utils.compressed_sensing.cartesian_mask` is not part of the sources). -/
def lowFreqBand (Nx sample_n i : Nat) : Bool :=
  decide (Nx / 2 - sample_n / 2 ≤ i) && decide (i < Nx / 2 + sample_n / 2)

/-- Modelled from the spec: membership in the band of up to sample_n
highest-frequency lines forced when sample_high_freq is set (centred order:
the highest frequencies sit at the two ends of the index range). -/
def highFreqBand (Nx sample_n i : Nat) : Bool :=
  decide (i < sample_n / 2) || decide (Nx - sample_n / 2 ≤ i)

/-- Modelled from the spec: one line of the Mask Generator in centred
frequency order (spec §4.1): a line is retained if the random draw from the
Gaussian-shaped density selected it, or if it is forced by sample_centre or
sample_high_freq.  `draw i` is the Bernoulli draw for line `i`; the
undersampling parameter ivar only shapes the distribution of `draw`, so
quantifying over all draws covers every ivar and every random state. -/
def centred_mask_line (draw : Nat → Bool) (Nx sample_n : Nat)
    (sample_centre sample_high_freq : Bool) (i : Nat) : Bool :=
  (sample_centre && lowFreqBand Nx sample_n i)
    || (sample_high_freq && highFreqBand Nx sample_n i)
    || draw i

/-- Modelled from the spec: with centred=false the mask is stored in unshifted
Fourier order, zero frequency at index 0 (spec §4.1); the stored mask is the
centred one re-indexed by ifftshift: stored[j] = centred[(j + Nx/2) % Nx]. -/
def cartesian_mask_line (draw : Nat → Bool) (Nx sample_n : Nat)
    (centred sample_centre sample_high_freq : Bool) (i : Nat) : Bool :=
  if centred then centred_mask_line draw Nx sample_n sample_centre sample_high_freq i
  else centred_mask_line draw Nx sample_n sample_centre sample_high_freq ((i + Nx / 2) % Nx)

/-- Storage position of the centred-order frequency index `i` under the
storage convention selected by `centred`. -/
def stored_index (centred : Bool) (Nx i : Nat) : Nat :=
  if centred then i else (i + (Nx - Nx / 2)) % Nx

/-- The mask parameterization used by prep_input (main_2d.py, lines 31-35):
centred=False, sample_high_freq=True, sample_centre=True, sample_n=8. -/
def prep_input_mask_line (draw : Nat → Bool) (Nx : Nat) : Nat → Bool :=
  cartesian_mask_line draw Nx 8 false true true

theorem stored_index_unshift (Nx i : Nat) (hi : i < Nx) :
    ((i + (Nx - Nx / 2)) % Nx + Nx / 2) % Nx = i := by
  have h1 : Nx / 2 ≤ Nx := Nat.div_le_self _ _
  rw [Nat.mod_add_mod]
  have h2 : i + (Nx - Nx / 2) + Nx / 2 = i + Nx := by omega
  rw [h2, Nat.add_mod_right, Nat.mod_eq_of_lt hi]

theorem cartesian_mask_line_forced (draw : Nat → Bool) (Nx n i : Nat)
    (centred shf : Bool) (hi : i < Nx) (hband : lowFreqBand Nx n i = true) :
    cartesian_mask_line draw Nx n centred true shf (stored_index centred Nx i) = true := by
  cases centred with
  | true =>
    simp [cartesian_mask_line, stored_index, centred_mask_line, hband]
  | false =>
    show centred_mask_line draw Nx n true shf
      (((i + (Nx - Nx / 2)) % Nx + Nx / 2) % Nx) = true
    rw [stored_index_unshift Nx i hi]
    simp [centred_mask_line, hband]

theorem lowFreqBand_card (Nx : Nat) (h8 : 8 ≤ Nx) :
    ((Finset.range Nx).filter fun j => lowFreqBand Nx 8 j = true).card = 8 := by
  have hset : ((Finset.range Nx).filter fun j => lowFreqBand Nx 8 j = true)
      = Finset.Ico (Nx / 2 - 4) (Nx / 2 + 4) := by
    ext j
    simp only [Finset.mem_filter, Finset.mem_range, Finset.mem_Ico, lowFreqBand,
      Bool.and_eq_true, decide_eq_true_eq]
    omega
  rw [hset, Nat.card_Ico]
  omega

/-- C6: every mask generated with sample_centre=true has all the forced
lowest-frequency lines set to 1, for every random draw (hence for every value
of ivar) and in both storage conventions; in particular every mask produced
with the prep_input parameters (sample_n = 8) has its 8 lowest-frequency
lines set to 1, and for Nx ≥ 8 the forced low-frequency band consists of
exactly 8 lines. -/
theorem C6_centre_lines_forced (draw : Nat → Bool) (Nx n i : Nat)
    (centred shf : Bool) (hi : i < Nx) (hband : lowFreqBand Nx n i = true) :
    cartesian_mask_line draw Nx n centred true shf (stored_index centred Nx i) = true
    ∧ (lowFreqBand Nx 8 i = true →
        prep_input_mask_line draw Nx (stored_index false Nx i) = true)
    ∧ (8 ≤ Nx →
        ((Finset.range Nx).filter fun j => lowFreqBand Nx 8 j = true).card = 8) :=
  ⟨cartesian_mask_line_forced draw Nx n i centred shf hi hband,
    fun hband8 => cartesian_mask_line_forced draw Nx 8 i false true hi hband8,
    fun h8 => lowFreqBand_card Nx h8⟩

/-- Witness for C6 at the run's parameters: Nx = 128, sample_n = 8, the
zero-frequency line i = 64, a draw that never samples, and the unshifted
storage used by prep_input (the line lands at stored index 0). -/
theorem C6_centre_lines_forced_witness :
    cartesian_mask_line (fun _ => false) 128 8 false true false
        (stored_index false 128 64) = true
    ∧ (lowFreqBand 128 8 64 = true →
        prep_input_mask_line (fun _ => false) 128 (stored_index false 128 64) = true)
    ∧ (8 ≤ 128 →
        ((Finset.range 128).filter fun j => lowFreqBand 128 8 j = true).card = 8) :=
  C6_centre_lines_forced (fun _ => false) 128 8 64 false false (by decide) (by decide)

section Fourier

variable {F : Type} [Field F]

/-- Modelled from the spec: the 1-D discrete Fourier transform over a field,
with transform kernel `ω`, an N-th root of unity (spec §4.2 and §2: the
Undersampling Simulator `utils.compressed_sensing.undersample` is not part of
the sources, only its caller `prep_input` is).  Floating-point complex
arithmetic is modelled exactly over an abstract field carrying the needed
roots of unity. -/
def dft1 (N : Nat) (ω : F) (f : Fin N → F) : Fin N → F :=
  fun k => ∑ j, ω ^ (j.1 * k.1) * f j

/-- Modelled from the spec: the unnormalized inverse 1-D DFT, kernel ω⁻¹. -/
def idft1 (N : Nat) (ω : F) (f : Fin N → F) : Fin N → F :=
  fun j => ∑ k, ω⁻¹ ^ (j.1 * k.1) * f k

/-- Modelled from the spec: the 2-D DFT, the 1-D transform applied along both
image axes. -/
def dft2 (Nx Ny : Nat) (ωx ωy : F) (im : Fin Nx → Fin Ny → F)
    (kx : Fin Nx) (ky : Fin Ny) : F :=
  dft1 Nx ωx (fun x => dft1 Ny ωy (im x) ky) kx

/-- Modelled from the spec: the 2-D inverse DFT. -/
def idft2 (Nx Ny : Nat) (ωx ωy : F) (k : Fin Nx → Fin Ny → F)
    (x : Fin Nx) (y : Fin Ny) : F :=
  idft1 Nx ωx (fun kx => idft1 Ny ωy (k kx) y) x

theorem dft1_orthogonality (N : Nat) (ω : F) (hω : ω ^ N = 1)
    (hprim : ∀ m, m < N → 0 < m → ω ^ m ≠ 1) (j x : Fin N) :
    ∑ k : Fin N, ω ^ (x.1 * k.1) * ω⁻¹ ^ (j.1 * k.1)
      = if j = x then (N : F) else 0 := by
  have hN : 0 < N := Nat.pos_of_ne_zero (fun h => (h ▸ j).elim0)
  have hω0 : ω ≠ 0 := by
    intro h
    rw [h, zero_pow (by omega)] at hω
    exact one_ne_zero hω.symm
  have hterm : ∀ k : Fin N, ω ^ (x.1 * k.1) * ω⁻¹ ^ (j.1 * k.1)
      = (ω ^ x.1 * ω⁻¹ ^ j.1) ^ k.1 := by
    intro k
    rw [mul_pow, ← pow_mul, ← pow_mul]
  rw [Finset.sum_congr rfl fun k _ => hterm k]
  have hfin : ∑ k : Fin N, (ω ^ x.1 * ω⁻¹ ^ j.1) ^ k.1
      = ∑ i ∈ Finset.range N, (ω ^ x.1 * ω⁻¹ ^ j.1) ^ i :=
    Fin.sum_univ_eq_sum_range (fun i => (ω ^ x.1 * ω⁻¹ ^ j.1) ^ i) N
  rw [hfin]
  have key : ∀ a b : Nat, a < b → b < N → ω ^ b ≠ ω ^ a := by
    intro a b hab hbN h
    have hsplit : ω ^ a * ω ^ (b - a) = ω ^ a * 1 := by
      rw [mul_one, ← pow_add, Nat.add_sub_cancel' (le_of_lt hab)]
      exact h
    have h2 : ω ^ (b - a) = 1 := mul_left_cancel₀ (pow_ne_zero _ hω0) hsplit
    exact hprim (b - a) (by omega) (by omega) h2
  by_cases hjx : j = x
  · subst hjx
    have ht1 : ω ^ j.1 * ω⁻¹ ^ j.1 = 1 := by
      rw [← mul_pow, mul_inv_cancel₀ hω0, one_pow]
    rw [ht1, if_pos rfl]
    simp
  · have htN : (ω ^ x.1 * ω⁻¹ ^ j.1) ^ N = 1 := by
      rw [mul_pow, ← pow_mul, ← pow_mul, mul_comm x.1 N, mul_comm j.1 N,
        pow_mul, pow_mul, hω, inv_pow, hω, inv_one, one_pow, one_pow, mul_one]
    have ht1 : ω ^ x.1 * ω⁻¹ ^ j.1 ≠ 1 := by
      intro h1
      rw [inv_pow, ← div_eq_mul_inv,
        div_eq_one_iff_eq (pow_ne_zero _ hω0)] at h1
      have hne : x.1 ≠ j.1 := fun h => hjx (Fin.ext h).symm
      rcases Nat.lt_or_ge x.1 j.1 with hlt | hge
      · exact key x.1 j.1 hlt j.2 h1.symm
      · exact key j.1 x.1 (by omega) x.2 h1
    rw [geom_sum_eq ht1, htN, sub_self, zero_div, if_neg hjx]

theorem idft1_dft1 (N : Nat) (ω : F) (hω : ω ^ N = 1)
    (hprim : ∀ m, m < N → 0 < m → ω ^ m ≠ 1) (f : Fin N → F) (j : Fin N) :
    idft1 N ω (dft1 N ω f) j = (N : F) * f j := by
  rw [idft1]
  calc ∑ k : Fin N, ω⁻¹ ^ (j.1 * k.1) * dft1 N ω f k
      = ∑ k : Fin N, ∑ x : Fin N, ω ^ (x.1 * k.1) * ω⁻¹ ^ (j.1 * k.1) * f x := by
        refine Finset.sum_congr rfl fun k _ => ?_
        rw [dft1, Finset.mul_sum]
        exact Finset.sum_congr rfl fun x _ => by ring
    _ = ∑ x : Fin N, ∑ k : Fin N, ω ^ (x.1 * k.1) * ω⁻¹ ^ (j.1 * k.1) * f x :=
        Finset.sum_comm
    _ = ∑ x : Fin N, (∑ k : Fin N, ω ^ (x.1 * k.1) * ω⁻¹ ^ (j.1 * k.1)) * f x := by
        refine Finset.sum_congr rfl fun x _ => ?_
        rw [Finset.sum_mul]
    _ = ∑ x : Fin N, (if j = x then (N : F) * f x else 0) := by
        refine Finset.sum_congr rfl fun x _ => ?_
        rw [dft1_orthogonality N ω hω hprim j x, ite_mul, zero_mul]
    _ = (N : F) * f j := by
        rw [Finset.sum_ite_eq]
        simp

theorem idft1_sum_mul (N : Nat) (ω : F) {ι : Type} (s : Finset ι)
    (c : ι → F) (g : ι → Fin N → F) (y : Fin N) :
    idft1 N ω (fun k => ∑ i ∈ s, c i * g i k) y
      = ∑ i ∈ s, c i * idft1 N ω (g i) y := by
  rw [idft1]
  calc ∑ k : Fin N, ω⁻¹ ^ (y.1 * k.1) * ∑ i ∈ s, c i * g i k
      = ∑ k : Fin N, ∑ i ∈ s, c i * (ω⁻¹ ^ (y.1 * k.1) * g i k) := by
        refine Finset.sum_congr rfl fun k _ => ?_
        rw [Finset.mul_sum]
        exact Finset.sum_congr rfl fun i _ => by ring
    _ = ∑ i ∈ s, ∑ k : Fin N, c i * (ω⁻¹ ^ (y.1 * k.1) * g i k) := Finset.sum_comm
    _ = ∑ i ∈ s, c i * idft1 N ω (g i) y := by
        refine Finset.sum_congr rfl fun i _ => ?_
        rw [idft1, ← Finset.mul_sum]

theorem idft1_const_mul (N : Nat) (ω c : F) (f : Fin N → F) (y : Fin N) :
    idft1 N ω (fun k => c * f k) y = c * idft1 N ω f y := by
  rw [idft1, idft1, Finset.mul_sum]
  exact Finset.sum_congr rfl fun k _ => by ring

theorem idft2_const_mul (Nx Ny : Nat) (ωx ωy c : F) (k : Fin Nx → Fin Ny → F)
    (x : Fin Nx) (y : Fin Ny) :
    idft2 Nx Ny ωx ωy (fun kx ky => c * k kx ky) x y
      = c * idft2 Nx Ny ωx ωy k x y := by
  rw [idft2, idft2, idft1, idft1, Finset.mul_sum]
  refine Finset.sum_congr rfl fun kx _ => ?_
  rw [idft1_const_mul]
  ring

theorem idft2_dft2 (Nx Ny : Nat) (ωx ωy : F)
    (hωx : ωx ^ Nx = 1) (hprimx : ∀ m, m < Nx → 0 < m → ωx ^ m ≠ 1)
    (hωy : ωy ^ Ny = 1) (hprimy : ∀ m, m < Ny → 0 < m → ωy ^ m ≠ 1)
    (im : Fin Nx → Fin Ny → F) (x : Fin Nx) (y : Fin Ny) :
    idft2 Nx Ny ωx ωy (dft2 Nx Ny ωx ωy im) x y
      = (Nx : F) * (Ny : F) * im x y := by
  rw [idft2]
  have step1 : ∀ kx : Fin Nx,
      idft1 Ny ωy (fun ky => dft2 Nx Ny ωx ωy im kx ky) y
        = (Ny : F) * dft1 Nx ωx (fun w => im w y) kx := by
    intro kx
    have hrw : (fun ky => dft2 Nx Ny ωx ωy im kx ky)
        = fun ky => ∑ w : Fin Nx, ωx ^ (w.1 * kx.1) * dft1 Ny ωy (im w) ky := by
      funext ky
      rw [dft2, dft1]
    rw [hrw, idft1_sum_mul]
    conv_rhs => rw [dft1, Finset.mul_sum]
    refine Finset.sum_congr rfl fun w _ => ?_
    rw [idft1_dft1 Ny ωy hωy hprimy]
    ring
  have step2 : (fun kx => idft1 Ny ωy (fun ky => dft2 Nx Ny ωx ωy im kx ky) y)
      = fun kx => (Ny : F) * dft1 Nx ωx (fun w => im w y) kx := funext step1
  rw [step2, idft1_const_mul, idft1_dft1 Nx ωx hωx hprimx]
  ring

/-- Modelled from the spec: the Undersampling Simulator (spec §4.2;
`utils.compressed_sensing.undersample` is not part of the sources):
`k_full = FFT2D(image, norm=ortho)`, `k_under = k_full * mask`,
`image_under = InverseFFT2D(k_under, norm=ortho)`, returning
`(image_under, k_under)`.  With the orthonormal convention both transform
directions carry the scale 1/sqrt(Nx*Ny), modelled by field elements sx, sy
subject to sx*sx*Nx = 1 and sy*sy*Ny = 1. -/
def undersample (Nx Ny : Nat) (ωx ωy sx sy : F) (im mask : Fin Nx → Fin Ny → F) :
    (Fin Nx → Fin Ny → F) × (Fin Nx → Fin Ny → F) :=
  let k_full := fun kx ky => sx * sy * dft2 Nx Ny ωx ωy im kx ky
  let k_und := fun kx ky => mask kx ky * k_full kx ky
  let im_und := fun x y => sx * sy * idft2 Nx Ny ωx ωy k_und x y
  (im_und, k_und)

/-- Modelled from the spec: `undersample` applied to a batch of images, the
transform acting on the two trailing axes of each batch element. -/
def undersample_batch (B Nx Ny : Nat) (ωx ωy sx sy : F)
    (im mask : Fin B → Fin Nx → Fin Ny → F) :
    (Fin B → Fin Nx → Fin Ny → F) × (Fin B → Fin Nx → Fin Ny → F) :=
  (fun b => (undersample Nx Ny ωx ωy sx sy (im b) (mask b)).1,
    fun b => (undersample Nx Ny ωx ωy sx sy (im b) (mask b)).2)

/-- C7: undersampling with an all-ones mask under the orthonormal
normalization returns an image equal to the input image, for every image
batch — exactly so in this exact-arithmetic model of the transform, which in
particular meets the floating-point tolerance of the claim. -/
theorem C7_allones_mask_roundtrip (B Nx Ny : Nat) (ωx ωy sx sy : F)
    (hωx : ωx ^ Nx = 1) (hprimx : ∀ m, m < Nx → 0 < m → ωx ^ m ≠ 1)
    (hωy : ωy ^ Ny = 1) (hprimy : ∀ m, m < Ny → 0 < m → ωy ^ m ≠ 1)
    (hsx : sx * sx * (Nx : F) = 1) (hsy : sy * sy * (Ny : F) = 1)
    (im : Fin B → Fin Nx → Fin Ny → F) :
    (undersample_batch B Nx Ny ωx ωy sx sy im (fun _ _ _ => 1)).1 = im := by
  funext b x y
  show sx * sy * idft2 Nx Ny ωx ωy
      (fun kx ky => (1 : F) * (sx * sy * dft2 Nx Ny ωx ωy (im b) kx ky)) x y = im b x y
  have h1 : (fun kx ky => (1 : F) * (sx * sy * dft2 Nx Ny ωx ωy (im b) kx ky))
      = fun kx ky => sx * sy * dft2 Nx Ny ωx ωy (im b) kx ky := by
    funext kx ky
    rw [one_mul]
  rw [h1, idft2_const_mul, idft2_dft2 Nx Ny ωx ωy hωx hprimx hωy hprimy]
  have h2 : sx * sy * (sx * sy * ((Nx : F) * (Ny : F) * im b x y))
      = sx * sx * (Nx : F) * (sy * sy * (Ny : F)) * im b x y := by ring
  rw [h2, hsx, hsy, one_mul, one_mul]

end Fourier

instance fact_prime_five : Fact (Nat.Prime 5) := ⟨by norm_num⟩

/-- Witness for C7 over the field ZMod 5 with Nx = Ny = 4, the primitive
4th root of unity 2 and orthonormal scale 2 (2·2·4 = 1 in ZMod 5), on a
concrete one-image batch. -/
theorem C7_allones_mask_roundtrip_witness :
    ((2 : ZMod 5) ^ 4 = 1)
    ∧ (∀ m, m < 4 → 0 < m → (2 : ZMod 5) ^ m ≠ 1)
    ∧ ((2 : ZMod 5) * 2 * ((4 : Nat) : ZMod 5) = 1)
    ∧ (undersample_batch 1 4 4 (2 : ZMod 5) 2 2 2
          (fun _ x y => (x.1 : ZMod 5) + (y.1 : ZMod 5) * 2) (fun _ _ _ => 1)).1
        = fun _ x y => (x.1 : ZMod 5) + (y.1 : ZMod 5) * 2 :=
  ⟨by decide, by decide, by decide,
    C7_allones_mask_roundtrip 1 4 4 2 2 2 2 (by decide) (by decide) (by decide)
      (by decide) (by decide) (by decide)
      (fun _ x y => (x.1 : ZMod 5) + (y.1 : ZMod 5) * 2)⟩

/-- Modelled from the spec: the batch of dummy masks used by the
acceleration-rate computation (main_2d.py, lines 153-158):
`cs.cartesian_mask((100, Nx, Ny), gauss_ivar, sample_high_freq=True,
sample_centre=True, sample_n=8)`, one random line-draw per batch element,
each retained line spanning all Ny columns.  `draws b` is the Bernoulli draw
of batch element `b`; the value at (b, x, y) depends only on (b, x). -/
def mask_batch (draws : Nat → Nat → Bool) (Nx sample_n b x : Nat) : Bool :=
  cartesian_mask_line (draws b) Nx sample_n false true true x

/-- Number of retained samples, `np.sum(dummy_mask)` (main_2d.py, line 157). -/
def mask_batch_sum (draws : Nat → Nat → Bool) (B Nx Ny sample_n : Nat) : Nat :=
  ∑ b ∈ Finset.range B, ∑ x ∈ Finset.range Nx, ∑ _y ∈ Finset.range Ny,
    (if mask_batch draws Nx sample_n b x then 1 else 0)

/-- Acceleration rate `mask.size / np.sum(mask)` (main_2d.py, line 157). -/
def acceleration_rate (draws : Nat → Nat → Bool) (B Nx Ny sample_n : Nat) : ℚ :=
  ((B * Nx * Ny : Nat) : ℚ) / ((mask_batch_sum draws B Nx Ny sample_n : Nat) : ℚ)

/-- C8 counterexample: at the claimed parameterization (100 masks of shape
128×128, sample_n = 8), the random state in which the Bernoulli draw retains
every line yields a full mask, whose acceleration rate is exactly 1 — not
strictly greater than 1.  So the strict lower bound does not hold for every
random state. -/
theorem C8_acceleration_counterexample :
    ¬ (1 < acceleration_rate (fun _ _ => true) 100 128 128 8) := by
  have hline : ∀ b x, mask_batch (fun _ _ => true) 128 8 b x = true := by
    intro b x
    show centred_mask_line (fun _ => true) 128 8 true true ((x + 128 / 2) % 128) = true
    simp [centred_mask_line]
  have hsum : mask_batch_sum (fun _ _ => true) 100 128 128 8 = 100 * 128 * 128 := by
    rw [mask_batch_sum]
    simp [hline]
  rw [acceleration_rate, hsum]
  rw [div_self (by norm_num)]
  exact lt_irrefl 1

theorem mask_batch_sum_le (draws : Nat → Nat → Bool) (B Nx Ny n : Nat) :
    mask_batch_sum draws B Nx Ny n ≤ B * Nx * Ny := by
  rw [mask_batch_sum]
  calc ∑ b ∈ Finset.range B, ∑ x ∈ Finset.range Nx, ∑ _y ∈ Finset.range Ny,
        (if mask_batch draws Nx n b x then 1 else 0)
      ≤ ∑ _b ∈ Finset.range B, ∑ _x ∈ Finset.range Nx, ∑ _y ∈ Finset.range Ny, 1 := by
        refine Finset.sum_le_sum fun b _ => ?_
        refine Finset.sum_le_sum fun x _ => ?_
        refine Finset.sum_le_sum fun y _ => ?_
        by_cases h : mask_batch draws Nx n b x
        · rw [if_pos h]
        · rw [if_neg h]
          omega
    _ = B * Nx * Ny := by
        simp [Finset.sum_const, Finset.card_range, mul_assoc]

theorem mask_batch_sum_lower (draws : Nat → Nat → Bool) (B Ny : Nat) :
    B * (8 * Ny) ≤ mask_batch_sum draws B 128 Ny 8 := by
  have hforced : (∑ x ∈ Finset.range 128,
      (if lowFreqBand 128 8 ((x + 128 / 2) % 128) = true then (1 : ℕ) else 0)) = 8 := by
    decide
  have hpoint : ∀ b x,
      (if lowFreqBand 128 8 ((x + 128 / 2) % 128) = true then (1 : ℕ) else 0)
        ≤ (if mask_batch draws 128 8 b x then 1 else 0) := by
    intro b x
    by_cases h : lowFreqBand 128 8 ((x + 128 / 2) % 128) = true
    · rw [if_pos h]
      have hm : mask_batch draws 128 8 b x = true := by
        show centred_mask_line (draws b) 128 8 true true ((x + 128 / 2) % 128) = true
        simp [centred_mask_line, h]
      rw [if_pos hm]
    · rw [if_neg h]
      exact Nat.zero_le _
  rw [mask_batch_sum]
  have hb : ∀ b ∈ Finset.range B,
      8 * Ny ≤ ∑ x ∈ Finset.range 128, ∑ _y ∈ Finset.range Ny,
        (if mask_batch draws 128 8 b x then (1 : ℕ) else 0) := by
    intro b _
    have hx : ∀ x ∈ Finset.range 128,
        (if lowFreqBand 128 8 ((x + 128 / 2) % 128) = true then (1 : ℕ) else 0) * Ny
          ≤ ∑ _y ∈ Finset.range Ny, (if mask_batch draws 128 8 b x then (1 : ℕ) else 0) := by
      intro x _
      rw [Finset.sum_const, Finset.card_range, smul_eq_mul, mul_comm Ny]
      exact Nat.mul_le_mul_right Ny (hpoint b x)
    calc 8 * Ny
        = (∑ x ∈ Finset.range 128,
            (if lowFreqBand 128 8 ((x + 128 / 2) % 128) = true then (1 : ℕ) else 0)) * Ny := by
          rw [hforced]
      _ = ∑ x ∈ Finset.range 128,
            (if lowFreqBand 128 8 ((x + 128 / 2) % 128) = true then (1 : ℕ) else 0) * Ny := by
          rw [Finset.sum_mul]
      _ ≤ _ := Finset.sum_le_sum hx
  calc B * (8 * Ny) = ∑ _b ∈ Finset.range B, 8 * Ny := by
        rw [Finset.sum_const, Finset.card_range, smul_eq_mul]
    _ ≤ _ := Finset.sum_le_sum hb

/-- C8 (amended): for the run's parameterization (a batch of 100 masks of
shape 128×128, sample_n = 8, sample_centre and sample_high_freq on), the
acceleration rate satisfies 1 ≤ rate < 20 for every random state; the bound
strictly above 1 holds only for random states that leave at least one line
unsampled, and fails for the all-sampled state (see the counterexample). -/
theorem C8_acceleration_rate_bounds (draws : Nat → Nat → Bool) :
    1 ≤ acceleration_rate draws 100 128 128 8
    ∧ acceleration_rate draws 100 128 128 8 < 20 := by
  have hup := mask_batch_sum_le draws 100 128 128 8
  have hlow := mask_batch_sum_lower draws 100 128
  have hSpos : 0 < mask_batch_sum draws 100 128 128 8 := by omega
  have hSpos' : (0 : ℚ) < (mask_batch_sum draws 100 128 128 8 : ℚ) := by
    exact_mod_cast hSpos
  constructor
  · rw [acceleration_rate, le_div_iff₀ hSpos', one_mul]
    exact_mod_cast hup
  · rw [acceleration_rate, div_lt_iff₀ hSpos']
    have h1 : (102400 : ℚ) ≤ (mask_batch_sum draws 100 128 128 8 : ℚ) := by
      exact_mod_cast (by omega : 102400 ≤ mask_batch_sum draws 100 128 128 8)
    have h2 : ((100 * 128 * 128 : ℕ) : ℚ) = 1638400 := by norm_num
    rw [h2]
    linarith

end DeepMRI
